import Mathlib

/-!
Verification development for the brainfuck-to-QBE compiler
(sources: src/lex.rs, src/ast.rs, src/gen.rs).

The Rust sources are embedded shallowly: iterators become lists,
`&mut self` state becomes explicit state passing, and the fallible
parser returns `Except`.  The recursive-descent parser and the lexer
driver loop are given a fuel parameter; sufficiency of the chosen fuel
is proved below, so the fuel-exhaustion branches are unreachable.
-/

namespace BF

/-- Tokens produced by the lexer (`enum Token` in src/lex.rs). -/
inductive Token where
  | MoveL (n : Nat)
  | MoveR (n : Nat)
  | Read
  | Write
  | Inc (n : Nat)
  | Dec (n : Nat)
  | JmpZero
  | JmpNoZero
  deriving DecidableEq, Repr

/-- The run-counting loops of `next` in src/lex.rs (`while let Some(c) =
state.iter.peek()` with `count += 1`): consume the maximal run of the
character `c` from the front of the input, returning the run length and
the remaining input. -/
def takeRun (c : Char) : List Char → Nat × List Char
  | [] => (0, [])
  | x :: xs =>
    if x = c then
      let p := takeRun c xs
      (p.1 + 1, p.2)
    else (0, x :: xs)

/-- The skip loop of the catch-all arm of `next` in src/lex.rs: drop
characters until one of the eight meaningful characters (or end of
input) is at the front. -/
def skipOther : List Char → List Char
  | [] => []
  | x :: xs =>
    if x = '<' ∨ x = '>' ∨ x = '+' ∨ x = '-' ∨ x = '.' ∨ x = ',' ∨ x = '[' ∨ x = ']' then
      x :: xs
    else skipOther xs

/-- The function `next` of src/lex.rs.  The catch-all arm of the source
skips to the next meaningful character and tail-recurses; the recursive
call then immediately dispatches on a meaningful character or on end of
input, so the recursion is unrolled here by pre-skipping: `skipOther`
leaves the input unchanged when its head is already meaningful.  The
final `none` arm is unreachable because `skipOther` only stops at
meaningful characters. -/
def lexNext (l : List Char) : Option (Token × List Char) :=
  match skipOther l with
  | [] => none
  | c :: cs =>
    if c = '<' then
      let p := takeRun '<' (c :: cs)
      some (Token.MoveL p.1, p.2)
    else if c = '>' then
      let p := takeRun '>' (c :: cs)
      some (Token.MoveR p.1, p.2)
    else if c = '+' then
      let p := takeRun '+' (c :: cs)
      some (Token.Inc p.1, p.2)
    else if c = '-' then
      let p := takeRun '-' (c :: cs)
      some (Token.Dec p.1, p.2)
    else if c = '.' then some (Token.Write, cs)
    else if c = ',' then some (Token.Read, cs)
    else if c = '[' then some (Token.JmpZero, cs)
    else if c = ']' then some (Token.JmpNoZero, cs)
    else none

/-- The token-collecting loop of `lex` in src/lex.rs (`while let
Some(token) = next(&mut state)`), with fuel.  Each successful `next`
consumes at least one character, so fuel equal to the input length is
always sufficient (`lexF_congr` below). -/
def lexF : Nat → List Char → List Token
  | 0, _ => []
  | fuel + 1, l =>
    match lexNext l with
    | none => []
    | some (t, r) => t :: lexF fuel r

/-- The function `lex` of src/lex.rs: run the token loop on the
character sequence of the input. -/
def lex (l : List Char) : List Token :=
  lexF l.length l

/-- Membership in the eight-character alphabet of the language
(the characters the lexer does not discard). -/
def meaningful (c : Char) : Bool :=
  c = '<' || c = '>' || c = '+' || c = '-' || c = '.' || c = ',' || c = '[' || c = ']'

/-- Character rendering of one token: the run of source characters a
token stands for. -/
def flatTok : Token → List Char
  | Token.MoveL n => List.replicate n '<'
  | Token.MoveR n => List.replicate n '>'
  | Token.Inc n => List.replicate n '+'
  | Token.Dec n => List.replicate n '-'
  | Token.Read => [',']
  | Token.Write => ['.']
  | Token.JmpZero => ['[']
  | Token.JmpNoZero => [']']

/-- Character rendering of a token sequence. -/
def flatToks : List Token → List Char
  | [] => []
  | t :: ts => flatTok t ++ flatToks ts

/-- The count a token carries (1 for the count-less tokens). -/
def tokenCount : Token → Nat
  | Token.MoveL n => n
  | Token.MoveR n => n
  | Token.Inc n => n
  | Token.Dec n => n
  | _ => 1

/-- The directional token for a directional character, carrying count
`k` (the lexer emits `MoveL`/`MoveR`/`Inc`/`Dec` for `<`/`>`/`+`/`-`). -/
def dirTok (c : Char) (k : Nat) : Token :=
  if c = '<' then Token.MoveL k
  else if c = '>' then Token.MoveR k
  else if c = '+' then Token.Inc k
  else Token.Dec k

/-- Parse errors (`enum Error` in src/ast.rs). -/
inductive Error where
  | UnexpectedToken (t : Token)
  | EndOfInput
  deriving DecidableEq, Repr

/-- The two parser error severities (`enum ParserError` in src/ast.rs).
`Failure` is an extension point: nothing in the source constructs it. -/
inductive ParserError (E : Type) where
  | Err (e : E)
  | Failure (e : E)
  deriving DecidableEq

/-- The empty attribute slot attached to every node (`struct Attr` in
src/ast.rs). -/
structure Attr where
  deriving DecidableEq

mutual
/-- A block node: an attribute slot and an ordered list of statements
(`struct NodeBlock` in src/ast.rs). -/
inductive NodeBlock where
  | mk (attr : Attr) (stats : List NodeStatement)
/-- A statement node: an attribute slot and a statement
(`struct NodeStatement` in src/ast.rs). -/
inductive NodeStatement where
  | mk (attr : Attr) (stat : Statement)
/-- The statement alternatives (`enum Statement` in src/ast.rs). -/
inductive Statement where
  | MoveL (n : Nat)
  | MoveR (n : Nat)
  | Add (n : Nat)
  | Sub (n : Nat)
  | Read
  | Write
  | Loop (b : NodeBlock)
end

/-- The function `take_one_of` of src/ast.rs: expect exactly the token
`of` at the front of the input. -/
def take_one_of (input : List Token) (of : Token) :
    Except (ParserError Error) (List Token × Token) :=
  match input with
  | [] => Except.error (ParserError.Err Error.EndOfInput)
  | i :: rest =>
    if i = of then Except.ok (rest, of)
    else Except.error (ParserError.Err (Error.UnexpectedToken i))

mutual
/-- The method `NodeStatement::parse` of src/ast.rs, with fuel (`none`
means the fuel ran out; fuel `2 * input.length + 2` always suffices,
see `parseBlockF_fuel` below). -/
def parseStatementF : Nat → List Token →
    Option (Except (ParserError Error) (List Token × NodeStatement))
  | 0, _ => none
  | fuel + 1, input =>
    match input with
    | [] => some (Except.error (ParserError.Err Error.EndOfInput))
    | t :: rest =>
      match t with
      | Token.MoveL n =>
        some (Except.ok (rest, NodeStatement.mk Attr.mk (Statement.MoveL n)))
      | Token.MoveR n =>
        some (Except.ok (rest, NodeStatement.mk Attr.mk (Statement.MoveR n)))
      | Token.Read =>
        some (Except.ok (rest, NodeStatement.mk Attr.mk Statement.Read))
      | Token.Write =>
        some (Except.ok (rest, NodeStatement.mk Attr.mk Statement.Write))
      | Token.Inc n =>
        some (Except.ok (rest, NodeStatement.mk Attr.mk (Statement.Add n)))
      | Token.Dec n =>
        some (Except.ok (rest, NodeStatement.mk Attr.mk (Statement.Sub n)))
      | Token.JmpZero =>
        match parseBlockF fuel rest with
        | none => none
        | some (Except.error e) => some (Except.error e)
        | some (Except.ok (input2, block)) =>
          match take_one_of input2 Token.JmpNoZero with
          | Except.error e => some (Except.error e)
          | Except.ok (input3, _) =>
            some (Except.ok (input3, NodeStatement.mk Attr.mk (Statement.Loop block)))
      | Token.JmpNoZero =>
        some (Except.error (ParserError.Err (Error.UnexpectedToken Token.JmpNoZero)))
/-- The method `NodeBlock::parse` of src/ast.rs: the statement-collecting
loop, written as recursion on the remaining iterations.  A recoverable
(`Err`) statement failure ends the block at the current input; a `Failure`
is propagated; the recursive call stands for the remaining loop
iterations. -/
def parseBlockF : Nat → List Token →
    Option (Except (ParserError Error) (List Token × NodeBlock))
  | 0, _ => none
  | fuel + 1, input =>
    match parseStatementF fuel input with
    | none => none
    | some (Except.error (ParserError.Failure f)) =>
      some (Except.error (ParserError.Failure f))
    | some (Except.error (ParserError.Err _)) =>
      some (Except.ok (input, NodeBlock.mk Attr.mk []))
    | some (Except.ok (rest, stat)) =>
      match parseBlockF fuel rest with
      | none => none
      | some (Except.error e) => some (Except.error e)
      | some (Except.ok (rest2, NodeBlock.mk a stats)) =>
        some (Except.ok (rest2, NodeBlock.mk a (stat :: stats)))
end

/-- The function `parse` of src/ast.rs: parse an outer block and require
the whole token stream to be consumed.  The `none` (fuel ran out) branch
is unreachable — `parseBlockF_fuel` below proves this fuel is always
sufficient — and is mapped to the same error the non-empty-remainder
check produces. -/
def parse (input : List Token) : Except Error NodeBlock :=
  match parseBlockF (2 * input.length + 2) input with
  | none => Except.error Error.EndOfInput
  | some (Except.error (ParserError.Err e)) => Except.error e
  | some (Except.error (ParserError.Failure e)) => Except.error e
  | some (Except.ok (rest, ast)) =>
    if rest.isEmpty then Except.ok ast else Except.error Error.EndOfInput

mutual
/-- Token rendering of a statement node: the token sequence it parses
from. -/
def flattenS : NodeStatement → List Token
  | NodeStatement.mk _ (Statement.MoveL n) => [Token.MoveL n]
  | NodeStatement.mk _ (Statement.MoveR n) => [Token.MoveR n]
  | NodeStatement.mk _ (Statement.Add n) => [Token.Inc n]
  | NodeStatement.mk _ (Statement.Sub n) => [Token.Dec n]
  | NodeStatement.mk _ Statement.Read => [Token.Read]
  | NodeStatement.mk _ Statement.Write => [Token.Write]
  | NodeStatement.mk _ (Statement.Loop b) =>
    Token.JmpZero :: (flattenB b ++ [Token.JmpNoZero])
/-- Token rendering of a block node. -/
def flattenB : NodeBlock → List Token
  | NodeBlock.mk _ stats => flattenL stats
/-- Token rendering of a statement list. -/
def flattenL : List NodeStatement → List Token
  | [] => []
  | s :: rest => flattenS s ++ flattenL rest
end

/-- Bracket-depth scan over a token sequence: `depthOk ts d = true` iff,
starting from `d` open loops, every `JmpNoZero` closes an open loop and
all loops are closed at the end. -/
def depthOk : List Token → Nat → Bool
  | [], d => d == 0
  | t :: ts, d =>
    if t = Token.JmpZero then depthOk ts (d + 1)
    else if t = Token.JmpNoZero then
      match d with
      | 0 => false
      | e + 1 => depthOk ts e
    else depthOk ts d

/-- A token sequence is balanced when its loop brackets nest properly. -/
def balancedTokens (ts : List Token) : Bool :=
  depthOk ts 0

/-- Decimal digit character for a digit value below ten (the rendering
Rust's `format!` applies to the generator's counters). -/
def decChar : Nat → Char
  | 0 => '0'
  | 1 => '1'
  | 2 => '2'
  | 3 => '3'
  | 4 => '4'
  | 5 => '5'
  | 6 => '6'
  | 7 => '7'
  | 8 => '8'
  | _ => '9'

/-- Most-significant-first decimal digits of `n`, with fuel (fuel `n`
suffices since the argument is divided by ten before each recursive
call). -/
def decStrAux : Nat → Nat → List Char
  | 0, _ => []
  | fuel + 1, n =>
    if n = 0 then []
    else decStrAux fuel (n / 10) ++ [decChar (n % 10)]

/-- Decimal rendering of a natural number, as Rust's `format!("{}", n)`
produces for the `usize` counters of the generator. -/
def decStr (n : Nat) : String :=
  if n = 0 then "0" else String.mk (decStrAux n n)

/-- Value of a decimal digit character (decoder used to prove that the
decimal rendering is injective); 10 for non-digit characters. -/
def charVal : Char → Nat
  | '0' => 0
  | '1' => 1
  | '2' => 2
  | '3' => 3
  | '4' => 4
  | '5' => 5
  | '6' => 6
  | '7' => 7
  | '8' => 8
  | '9' => 9
  | _ => 10

/-- Value of a most-significant-first digit character list. -/
def listVal (l : List Char) : Nat :=
  l.foldl (fun acc c => 10 * acc + charVal c) 0

/-- Values of the emitted IR (the constructors of `qbe::Value` the
generator uses). -/
inductive Value where
  | Temporary (s : String)
  | Const (n : Nat)
  deriving DecidableEq

/-- Types of the emitted IR (the constructors of `qbe::Type` the
generator uses). -/
inductive Ty where
  | Word
  | Long
  deriving DecidableEq

/-- Comparison kinds of the emitted IR (the generator only uses signed
greater-than, `qbe::Cmp::Sgt`). -/
inductive CmpOp where
  | Sgt
  deriving DecidableEq

/-- Instructions of the emitted IR (the constructors of `qbe::Instr`
the generator uses, with the argument shapes of the qbe crate). -/
inductive Instr where
  | Add (a b : Value)
  | Sub (a b : Value)
  | Load (t : Ty) (src : Value)
  | Store (t : Ty) (dst src : Value)
  | Copy (v : Value)
  | Alloc8 (size : Nat)
  | Ret (v : Option Value)
  | Jnz (cond : Value) (ifNonZero ifZero : String)
  | Call (fname : String) (args : List (Ty × Value))
  | Cmp (t : Ty) (op : CmpOp) (a b : Value)
  deriving DecidableEq

/-- One emission step into the single `main` function, in order: a new
basic-block label (`Function::add_block`), a plain instruction
(`Function::add_instr`), or an assignment of an instruction result to a
temporary (`Function::assign_instr`). -/
inductive FuncItem where
  | block (label : String)
  | instr (i : Instr)
  | assign (dst : Value) (t : Ty) (i : Instr)
  deriving DecidableEq

/-- The generator state (`struct QbeGenerator` in src/gen.rs). -/
structure QbeGenerator where
  label_counter : Nat
  tmp_counter : Nat
  tape_len : Nat
  deriving DecidableEq

/-- The constructor `QbeGenerator::new` of src/gen.rs: both counters
start at zero and the tape length is sixteen bytes per cell for 30000
cells (the source marks this with `FIXME: holes in the tape`). -/
def QbeGenerator.new : QbeGenerator :=
  { tmp_counter := 0, label_counter := 0, tape_len := 16 * 30000 }

/-- The method `generate_ptr` of src/gen.rs: the fixed temporary holding
the tape pointer (it does not touch the counters). -/
def generate_ptr : Value :=
  Value.Temporary "ptr"

/-- The method `generate_tmp` of src/gen.rs: a fresh temporary from the
temporary counter. -/
def generate_tmp (g : QbeGenerator) : Value × QbeGenerator :=
  (Value.Temporary ("v" ++ decStr g.tmp_counter),
   { g with tmp_counter := g.tmp_counter + 1 })

/-- The method `generate_label` of src/gen.rs: a fresh label from the
label counter, with the given text before the number. -/
def generate_label (pre : String) (g : QbeGenerator) : String × QbeGenerator :=
  (pre ++ decStr g.label_counter, { g with label_counter := g.label_counter + 1 })

/-- The method `generate_bounds_check` of src/gen.rs: offset from the
tape base, signed comparison of half the tape length against the
offset, branch to a halt block returning status 1 or to a continuation
block.  The temporary `pred` is allocated but never used, exactly as in
the source. -/
def generate_bounds_check (g : QbeGenerator) : List FuncItem × QbeGenerator :=
  let pc := generate_label "cont" g
  let ph := generate_label "halt" pc.2
  let ppred := generate_tmp ph.2
  let poff := generate_tmp ppred.2
  let pib := generate_tmp poff.2
  ([FuncItem.assign poff.1 Ty.Long (Instr.Sub generate_ptr (Value.Temporary "tape")),
    FuncItem.assign pib.1 Ty.Long
      (Instr.Cmp Ty.Long CmpOp.Sgt (Value.Const (g.tape_len / 2)) poff.1),
    FuncItem.instr (Instr.Jnz pib.1 pc.1 ph.1),
    FuncItem.block ph.1,
    FuncItem.instr (Instr.Ret (some (Value.Const 1))),
    FuncItem.block pc.1],
   pib.2)

mutual
/-- The method `generate_statement` of src/gen.rs: lowering of one
statement, returning the emitted items in order together with the
updated generator state. -/
def generate_statement (g : QbeGenerator) (stat : NodeStatement) :
    List FuncItem × QbeGenerator :=
  match stat with
  | NodeStatement.mk _ s =>
    match s with
    | Statement.MoveL n =>
      let bc := generate_bounds_check g
      (FuncItem.assign generate_ptr Ty.Long
         (Instr.Sub generate_ptr (Value.Const (n * 8))) :: bc.1, bc.2)
    | Statement.MoveR n =>
      let bc := generate_bounds_check g
      (FuncItem.assign generate_ptr Ty.Long
         (Instr.Add generate_ptr (Value.Const (n * 8))) :: bc.1, bc.2)
    | Statement.Add n =>
      let pt := generate_tmp g
      ([FuncItem.assign pt.1 Ty.Word (Instr.Load Ty.Word generate_ptr),
        FuncItem.assign pt.1 Ty.Word (Instr.Add pt.1 (Value.Const n)),
        FuncItem.instr (Instr.Store Ty.Word generate_ptr pt.1)], pt.2)
    | Statement.Sub n =>
      let pt := generate_tmp g
      ([FuncItem.assign pt.1 Ty.Word (Instr.Load Ty.Word generate_ptr),
        FuncItem.assign pt.1 Ty.Word (Instr.Sub pt.1 (Value.Const n)),
        FuncItem.instr (Instr.Store Ty.Word generate_ptr pt.1)], pt.2)
    | Statement.Read =>
      ([FuncItem.instr (Instr.Call "read"
          [(Ty.Word, Value.Const 0), (Ty.Long, generate_ptr), (Ty.Long, Value.Const 1)])],
       g)
    | Statement.Write =>
      ([FuncItem.instr (Instr.Call "write"
          [(Ty.Word, Value.Const 1), (Ty.Long, generate_ptr), (Ty.Long, Value.Const 1)])],
       g)
    | Statement.Loop b =>
      let c := g.label_counter
      let bLabel := "loop" ++ decStr c
      let eLabel := "end" ++ decStr c
      let g1 : QbeGenerator := { g with label_counter := c + 1 }
      let pt := generate_tmp g1
      let pb := generate_block pt.2 b
      ([FuncItem.assign pt.1 Ty.Word (Instr.Load Ty.Word generate_ptr),
        FuncItem.instr (Instr.Jnz pt.1 bLabel eLabel),
        FuncItem.block bLabel] ++
       pb.1 ++
       [FuncItem.assign pt.1 Ty.Word (Instr.Load Ty.Word generate_ptr),
        FuncItem.instr (Instr.Jnz pt.1 bLabel eLabel),
        FuncItem.block eLabel],
       pb.2)
/-- The method `generate_block` of src/gen.rs: lower the statements of a
block in order. -/
def generate_block (g : QbeGenerator) (b : NodeBlock) :
    List FuncItem × QbeGenerator :=
  match b with
  | NodeBlock.mk _ stats => generate_stats g stats
/-- The statement loop of `generate_block`, over the list of statements. -/
def generate_stats (g : QbeGenerator) (l : List NodeStatement) :
    List FuncItem × QbeGenerator :=
  match l with
  | [] => ([], g)
  | s :: rest =>
    let p := generate_statement g s
    let q := generate_stats p.2 rest
    (p.1 ++ q.1, q.2)
end

/-- The method `generate_runtime` of src/gen.rs: allocate the tape and
point the pointer temporary at its base. -/
def generate_runtime (g : QbeGenerator) : List FuncItem × QbeGenerator :=
  ([FuncItem.assign (Value.Temporary "tape") Ty.Long (Instr.Alloc8 g.tape_len),
    FuncItem.assign generate_ptr Ty.Long (Instr.Copy (Value.Temporary "tape"))],
   g)

/-- The method `gen` of src/gen.rs: the body of the single public `main`
function, in emission order — the `runtime` block, the `start` block
with the lowered program, and the final return of status 0.  The source
wraps the text rendering of this structure in `Ok`; the rendering
itself (`Display` of `qbe::Module`) is a pure function of the returned
items, performed by the external qbe crate. -/
def gen (g : QbeGenerator) (prog : NodeBlock) : List FuncItem × QbeGenerator :=
  let rt := generate_runtime g
  let body := generate_block rt.2 prog
  (FuncItem.block "runtime" :: rt.1 ++ FuncItem.block "start" :: body.1 ++
     [FuncItem.instr (Instr.Ret (some (Value.Const 0)))],
   body.2)

/-- All values returned by `Ret` instructions among the items, in
order. -/
def retsOf (items : List FuncItem) : List (Option Value) :=
  items.filterMap fun it =>
    match it with
    | FuncItem.instr (Instr.Ret v) => some v
    | FuncItem.assign _ _ (Instr.Ret v) => some v
    | _ => none

/-- All basic-block labels among the items, in order. -/
def labelsOf (items : List FuncItem) : List String :=
  items.filterMap fun it =>
    match it with
    | FuncItem.block s => some s
    | _ => none

/-- All `Alloc8` allocation sizes among the items, in order. -/
def allocsOf (items : List FuncItem) : List Nat :=
  items.filterMap fun it =>
    match it with
    | FuncItem.instr (Instr.Alloc8 n) => some n
    | FuncItem.assign _ _ (Instr.Alloc8 n) => some n
    | _ => none

mutual
/-- Number of `MoveL`/`MoveR` statements in a statement, counting through
nested loops. -/
def movesS : NodeStatement → Nat
  | NodeStatement.mk _ (Statement.MoveL _) => 1
  | NodeStatement.mk _ (Statement.MoveR _) => 1
  | NodeStatement.mk _ (Statement.Loop b) => movesB b
  | NodeStatement.mk _ _ => 0
/-- Number of `MoveL`/`MoveR` statements in a block. -/
def movesB : NodeBlock → Nat
  | NodeBlock.mk _ stats => movesL stats
/-- Number of `MoveL`/`MoveR` statements in a statement list. -/
def movesL : List NodeStatement → Nat
  | [] => 0
  | s :: rest => movesS s + movesL rest
end

/-- The four label texts the statement lowering uses. -/
inductive LabelKind where
  | lLoop
  | lEnd
  | lCont
  | lHalt
  deriving DecidableEq

/-- The text of a label kind. -/
def kindText : LabelKind → String
  | LabelKind.lLoop => "loop"
  | LabelKind.lEnd => "end"
  | LabelKind.lCont => "cont"
  | LabelKind.lHalt => "halt"

/-- The label a kind and a counter value render to. -/
def renderLabel (k : LabelKind) (c : Nat) : String :=
  kindText k ++ decStr c

/-- Modelled from the spec: the external backend evaluates `sub` on
64-bit `long` values with wraparound; this is the wrapping difference
of two 64-bit values. -/
def sub64 (a b : Nat) : Nat :=
  (a + (2 ^ 64 - b % 2 ^ 64)) % 2 ^ 64

/-- Modelled from the spec: the signed (two's-complement) reading of a
64-bit value, as the backend's signed comparisons interpret it. -/
def toInt64 (n : Nat) : Int :=
  if n % 2 ^ 64 < 2 ^ 63 then ((n % 2 ^ 64 : Nat) : Int)
  else ((n % 2 ^ 64 : Nat) : Int) - 2 ^ 64

/-- Modelled from the spec: the backend's `csgtl` — signed greater-than
on 64-bit `long` values. -/
def sgt64 (a b : Nat) : Bool :=
  decide (toInt64 b < toInt64 a)

/-- Outcome of executing a bounds-check guard: fall through to the code
after the guard, return from the procedure with a status, or a stuck
state for item sequences that are not a guard. -/
inductive GuardResult where
  | through
  | halted (status : Nat)
  | stuck
  deriving DecidableEq

/-- Modelled from the spec: execution of the emitted guard sequence by
the external backend, which is outside this repository.  `p` is the
current pointer value and `b` the tape base address, both 64-bit.  The
offset temporary receives the wrapping difference, the predicate
temporary the signed comparison of the compared constant against the
offset, and `jnz` enters its first target on a nonzero predicate (the
continuation block, placed after the halt block) and its second target
(the halt block, which returns the emitted status) on zero. -/
def runGuard (items : List FuncItem) (p b : Nat) : GuardResult :=
  match items with
  | [FuncItem.assign (Value.Temporary off) Ty.Long
       (Instr.Sub (Value.Temporary ptr) (Value.Temporary tape)),
     FuncItem.assign (Value.Temporary ib) Ty.Long
       (Instr.Cmp Ty.Long CmpOp.Sgt (Value.Const h) (Value.Temporary off2)),
     FuncItem.instr (Instr.Jnz (Value.Temporary ib2) contT haltT),
     FuncItem.block haltB,
     FuncItem.instr (Instr.Ret (some (Value.Const st))),
     FuncItem.block contB] =>
    if ptr = "ptr" ∧ tape = "tape" ∧ off2 = off ∧ ib2 = ib ∧
        haltB = haltT ∧ contB = contT then
      if sgt64 h (sub64 p b) then GuardResult.through else GuardResult.halted st
    else GuardResult.stuck
  | _ => GuardResult.stuck

/-! ### Lexer lemmas -/

theorem meaningful_iff {c : Char} :
    meaningful c = true ↔
      (c = '<' ∨ c = '>' ∨ c = '+' ∨ c = '-' ∨ c = '.' ∨ c = ',' ∨ c = '[' ∨ c = ']') := by
  simp only [meaningful, Bool.or_eq_true, decide_eq_true_eq]
  tauto

theorem skipOther_length (l : List Char) : (skipOther l).length ≤ l.length := by
  induction l with
  | nil => simp [skipOther]
  | cons x xs ih =>
    simp only [skipOther]
    split
    · exact Nat.le_refl _
    · exact Nat.le_succ_of_le ih

theorem skipOther_filter (l : List Char) :
    (skipOther l).filter meaningful = l.filter meaningful := by
  induction l with
  | nil => rfl
  | cons x xs ih =>
    simp only [skipOther]
    split
    · rfl
    · rename_i hx
      have hm : meaningful x = false := by
        rcases hb : meaningful x with _ | _
        · rfl
        · exact absurd (meaningful_iff.mp hb) hx
      rw [List.filter_cons_of_neg (by simp [hm]), ih]

theorem skipOther_head_meaningful :
    ∀ {l c cs}, skipOther l = c :: cs → meaningful c = true := by
  intro l
  induction l with
  | nil => intro c cs h; exact absurd h (by simp [skipOther])
  | cons x xs ih =>
    intro c cs h
    by_cases hx : (x = '<' ∨ x = '>' ∨ x = '+' ∨ x = '-' ∨ x = '.' ∨ x = ',' ∨ x = '[' ∨ x = ']')
    · rw [skipOther, if_pos hx] at h
      obtain ⟨rfl, -⟩ : x = c ∧ xs = cs := by
        injection h with h1 h2; exact ⟨h1, h2⟩
      exact meaningful_iff.mpr hx
    · rw [skipOther, if_neg hx] at h
      exact ih h

theorem skipOther_meaningful {c : Char} (xs : List Char) (hc : meaningful c = true) :
    skipOther (c :: xs) = c :: xs := by
  rw [skipOther, if_pos (meaningful_iff.mp hc)]

theorem takeRun_spec (c : Char) (l : List Char) :
    l = List.replicate (takeRun c l).1 c ++ (takeRun c l).2 := by
  induction l with
  | nil => rfl
  | cons x xs ih =>
    by_cases hx : x = c
    · subst hx
      simp only [takeRun, if_pos rfl, List.replicate_succ, List.cons_append]
      exact congrArg (List.cons x) ih
    · simp [takeRun, if_neg hx]

theorem takeRun_fst_cons (c : Char) (cs : List Char) : 1 ≤ (takeRun c (c :: cs)).1 := by
  have h : takeRun c (c :: cs) = ((takeRun c cs).1 + 1, (takeRun c cs).2) := by
    simp [takeRun]
  rw [h]
  exact Nat.succ_le_succ (Nat.zero_le _)

theorem takeRun_replicate {c : Char} {s : List Char} (hs : s.head? ≠ some c) :
    ∀ k, takeRun c (List.replicate k c ++ s) = (k, s) := by
  intro k
  induction k with
  | zero =>
    simp only [List.replicate, List.nil_append]
    cases s with
    | nil => rfl
    | cons x xs =>
      have hx : ¬x = c := by simpa using hs
      simp [takeRun, hx]
  | succ k ih =>
    show (if c = c then ((takeRun c (List.replicate k c ++ s)).1 + 1,
        (takeRun c (List.replicate k c ++ s)).2) else (0, c :: (List.replicate k c ++ s))) =
      (k + 1, s)
    rw [if_pos rfl, ih]

theorem replicate_filter {n : Nat} {c : Char} (hc : meaningful c = true) :
    (List.replicate n c).filter meaningful = List.replicate n c :=
  List.filter_eq_self.mpr fun a ha => by rw [List.eq_of_mem_replicate ha]; exact hc

theorem run_branch {c : Char} (cs : List Char) (hc : meaningful c = true) :
    (c :: cs).filter meaningful =
      List.replicate (takeRun c (c :: cs)).1 c ++ (takeRun c (c :: cs)).2.filter meaningful ∧
      (takeRun c (c :: cs)).2.length < (c :: cs).length ∧ 1 ≤ (takeRun c (c :: cs)).1 := by
  have hspec := takeRun_spec c (c :: cs)
  have h1 := takeRun_fst_cons c cs
  refine ⟨?_, ?_, h1⟩
  · conv_lhs => rw [hspec]
    rw [List.filter_append, replicate_filter hc]
  · have hl := congrArg List.length hspec
    simp only [List.length_cons, List.length_append, List.length_replicate] at hl
    simp only [List.length_cons]
    omega

theorem lexNext_spec {l : List Char} {t : Token} {r : List Char}
    (h : lexNext l = some (t, r)) :
    l.filter meaningful = flatTok t ++ r.filter meaningful ∧
      r.length < l.length ∧ 1 ≤ tokenCount t := by
  unfold lexNext at h
  split at h
  · exact absurd h (by simp)
  · rename_i c cs hsl
    have hm := skipOther_head_meaningful hsl
    have hfl : l.filter meaningful = (c :: cs).filter meaningful := by
      rw [← skipOther_filter l, hsl]
    have hln : (c :: cs).length ≤ l.length := by
      rw [← hsl]; exact skipOther_length l
    split_ifs at h with h1 h2 h3 h4 h5 h6 h7 h8 <;>
      simp only [Option.some.injEq, Prod.mk.injEq] at h
    · obtain ⟨rfl, rfl⟩ := h
      subst h1
      obtain ⟨ha, hb, hcnt⟩ := run_branch cs hm
      exact ⟨by rw [hfl, ha]; rfl, by omega, hcnt⟩
    · obtain ⟨rfl, rfl⟩ := h
      subst h2
      obtain ⟨ha, hb, hcnt⟩ := run_branch cs hm
      exact ⟨by rw [hfl, ha]; rfl, by omega, hcnt⟩
    · obtain ⟨rfl, rfl⟩ := h
      subst h3
      obtain ⟨ha, hb, hcnt⟩ := run_branch cs hm
      exact ⟨by rw [hfl, ha]; rfl, by omega, hcnt⟩
    · obtain ⟨rfl, rfl⟩ := h
      subst h4
      obtain ⟨ha, hb, hcnt⟩ := run_branch cs hm
      exact ⟨by rw [hfl, ha]; rfl, by omega, hcnt⟩
    · obtain ⟨rfl, rfl⟩ := h
      subst h5
      refine ⟨?_, by simp only [List.length_cons] at hln ⊢; omega, by simp [tokenCount]⟩
      rw [hfl, List.filter_cons_of_pos (by decide)]
      rfl
    · obtain ⟨rfl, rfl⟩ := h
      subst h6
      refine ⟨?_, by simp only [List.length_cons] at hln ⊢; omega, by simp [tokenCount]⟩
      rw [hfl, List.filter_cons_of_pos (by decide)]
      rfl
    · obtain ⟨rfl, rfl⟩ := h
      subst h7
      refine ⟨?_, by simp only [List.length_cons] at hln ⊢; omega, by simp [tokenCount]⟩
      rw [hfl, List.filter_cons_of_pos (by decide)]
      rfl
    · obtain ⟨rfl, rfl⟩ := h
      subst h8
      refine ⟨?_, by simp only [List.length_cons] at hln ⊢; omega, by simp [tokenCount]⟩
      rw [hfl, List.filter_cons_of_pos (by decide)]
      rfl

theorem lexNext_none {l : List Char} (h : lexNext l = none) :
    l.filter meaningful = [] := by
  unfold lexNext at h
  split at h
  · rename_i hsl
    rw [← skipOther_filter l, hsl]
    rfl
  · rename_i c cs hsl
    have hm := skipOther_head_meaningful hsl
    split_ifs at h
    rcases meaningful_iff.mp hm with hc | hc | hc | hc | hc | hc | hc | hc <;>
      exact absurd hc (by assumption)

theorem lexF_nil (fuel : Nat) : lexF fuel [] = [] := by
  cases fuel with
  | zero => rfl
  | succ fuel => rfl

theorem lexF_length : ∀ (fuel : Nat) (l : List Char), (lexF fuel l).length ≤ fuel := by
  intro fuel
  induction fuel with
  | zero => intro l; exact Nat.le_refl 0
  | succ fuel ih =>
    intro l
    rw [lexF]
    cases hn : lexNext l with
    | none => exact Nat.zero_le _
    | some p => exact Nat.succ_le_succ (ih p.2)

theorem lexF_congr :
    ∀ (n : Nat) (l : List Char), l.length ≤ n →
      ∀ f₁ f₂, l.length ≤ f₁ → l.length ≤ f₂ → lexF f₁ l = lexF f₂ l := by
  intro n
  induction n with
  | zero =>
    intro l hl f₁ f₂ h₁ h₂
    have : l = [] := List.length_eq_zero.mp (Nat.le_zero.mp hl)
    subst this
    rw [lexF_nil, lexF_nil]
  | succ n ih =>
    intro l hl f₁ f₂ h₁ h₂
    cases f₁ with
    | zero =>
      have : l = [] := List.length_eq_zero.mp (Nat.le_zero.mp h₁)
      subst this
      rw [lexF_nil, lexF_nil]
    | succ f₁ =>
      cases f₂ with
      | zero =>
        have : l = [] := List.length_eq_zero.mp (Nat.le_zero.mp h₂)
        subst this
        rw [lexF_nil, lexF_nil]
      | succ f₂ =>
        cases hn : lexNext l with
        | none => simp only [lexF, hn]
        | some p =>
          obtain ⟨t, r⟩ := p
          have hr := (lexNext_spec hn).2.1
          simp only [lexF, hn]
          rw [ih r (by omega) f₁ f₂ (by omega) (by omega)]

theorem lex_cons {l : List Char} {t : Token} {r : List Char}
    (h : lexNext l = some (t, r)) : lex l = t :: lex r := by
  have hr := (lexNext_spec h).2.1
  unfold lex
  cases hl : l.length with
  | zero =>
    have : l = [] := List.length_eq_zero.mp hl
    subst this
    exact absurd h (by simp [lexNext, skipOther])
  | succ m =>
    simp only [lexF, h]
    rw [lexF_congr r.length r (Nat.le_refl _) m r.length (by omega) (Nat.le_refl _)]

theorem flatToks_lexF :
    ∀ (fuel : Nat) (l : List Char), l.length ≤ fuel →
      flatToks (lexF fuel l) = l.filter meaningful := by
  intro fuel
  induction fuel with
  | zero =>
    intro l hl
    have : l = [] := List.length_eq_zero.mp (Nat.le_zero.mp hl)
    subst this
    rfl
  | succ fuel ih =>
    intro l hl
    cases hn : lexNext l with
    | none =>
      simp only [lexF, hn]
      exact (lexNext_none hn).symm
    | some p =>
      obtain ⟨t, r⟩ := p
      obtain ⟨hf, hr, -⟩ := lexNext_spec hn
      simp only [lexF, hn]
      rw [flatToks, ih r (by omega), hf]

theorem lexF_count :
    ∀ (fuel : Nat) (l : List Char) (t : Token), t ∈ lexF fuel l → 1 ≤ tokenCount t := by
  intro fuel
  induction fuel with
  | zero => intro l t ht; exact absurd ht (by simp [lexF])
  | succ fuel ih =>
    intro l t ht
    cases hn : lexNext l with
    | none =>
      simp only [lexF, hn] at ht
      exact absurd ht (by simp)
    | some p =>
      obtain ⟨t0, r⟩ := p
      simp only [lexF, hn] at ht
      rcases List.mem_cons.mp ht with rfl | hmem
      · exact (lexNext_spec hn).2.2
      · exact ih r t hmem

theorem lexNext_run {c : Char} {k : Nat} {s : List Char}
    (hdir : c = '<' ∨ c = '>' ∨ c = '+' ∨ c = '-') (hk : 1 ≤ k)
    (hs : s.head? ≠ some c) :
    lexNext (List.replicate k c ++ s) = some (dirTok c k, s) := by
  obtain ⟨m, rfl⟩ : ∃ m, k = m + 1 := ⟨k - 1, by omega⟩
  have htr := takeRun_replicate hs (m + 1)
  have hrep : List.replicate (m + 1) c ++ s = c :: (List.replicate m c ++ s) := by
    rw [List.replicate_succ, List.cons_append]
  rw [hrep] at htr ⊢
  rcases hdir with rfl | rfl | rfl | rfl
  · show some (Token.MoveL (takeRun '<' ('<' :: (List.replicate m '<' ++ s))).1,
        (takeRun '<' ('<' :: (List.replicate m '<' ++ s))).2) = some (dirTok '<' (m + 1), s)
    rw [htr]
    rfl
  · show some (Token.MoveR (takeRun '>' ('>' :: (List.replicate m '>' ++ s))).1,
        (takeRun '>' ('>' :: (List.replicate m '>' ++ s))).2) = some (dirTok '>' (m + 1), s)
    rw [htr]
    rfl
  · show some (Token.Inc (takeRun '+' ('+' :: (List.replicate m '+' ++ s))).1,
        (takeRun '+' ('+' :: (List.replicate m '+' ++ s))).2) = some (dirTok '+' (m + 1), s)
    rw [htr]
    rfl
  · show some (Token.Dec (takeRun '-' ('-' :: (List.replicate m '-' ++ s))).1,
        (takeRun '-' ('-' :: (List.replicate m '-' ++ s))).2) = some (dirTok '-' (m + 1), s)
    rw [htr]
    rfl

/-- C6: lexing a maximal run of k identical consecutive directional
characters (k at least 1, the run not continued by the following
input) emits exactly one token carrying count k, and every count
carried by a token the lexer emits is at least 1. -/
theorem c6_run_length_coalescing :
    (∀ (c : Char) (k : Nat) (s : List Char),
      1 ≤ k → (c = '<' ∨ c = '>' ∨ c = '+' ∨ c = '-') → s.head? ≠ some c →
        lex (List.replicate k c ++ s) = dirTok c k :: lex s) ∧
    (∀ (l : List Char) (t : Token), t ∈ lex l → 1 ≤ tokenCount t) := by
  constructor
  · intro c k s hk hdir hs
    exact lex_cons (lexNext_run hdir hk hs)
  · intro l t ht
    exact lexF_count l.length l t ht

/-- C6 witness: `>>>` lexes to exactly `[MoveR 3]`, a token of count 3,
which is at least 1. -/
theorem c6_run_length_coalescing_witness :
    lex (List.replicate 3 '>') = [Token.MoveR 3] ∧ 1 ≤ tokenCount (Token.MoveR 3) := by
  constructor
  · have h := c6_run_length_coalescing.1 '>' 3 [] (by decide) (by tauto) (by decide)
    simpa using h
  · exact c6_run_length_coalescing.2 (List.replicate 3 '>')
      (Token.MoveR 3) (by decide)

/-- C8: lexing is total — it is a function defined on every character
sequence (termination is certified by Lean accepting the definitions),
and the token sequence it produces is finite, of length bounded by the
input length. -/
theorem c8_lex_total (l : List Char) : (lex l).length ≤ l.length :=
  lexF_length l.length l

/-- C9 counterexample: deleting the ignored character of `+ +` changes
the emitted token sequence — `+ +` lexes to two `Inc 1` tokens while its
filtered form `++` coalesces into one `Inc 2` token. -/
theorem c9_delete_ignored_counterexample :
    lex ['+', ' ', '+'] = [Token.Inc 1, Token.Inc 1] ∧
    ['+', ' ', '+'].filter meaningful = ['+', '+'] ∧
    lex ['+', '+'] = [Token.Inc 2] ∧
    lex ['+', ' ', '+'] ≠ lex (['+', ' ', '+'].filter meaningful) := by
  refine ⟨rfl, rfl, rfl, ?_⟩
  decide

/-- C9 amended: every character outside the eight-symbol alphabet is
dropped with no token emitted, and deleting all ignored characters
preserves the character content of the token sequence — the rendering
of the tokens of the input and the rendering of the tokens of the
filtered input both equal the filtered input — though not necessarily
the token boundaries, since an ignored character separating two
identical directional characters splits one run token into two. -/
theorem c9_ignored_dropped_rendering (l : List Char) :
    flatToks (lex l) = l.filter meaningful ∧
    flatToks (lex (l.filter meaningful)) = l.filter meaningful := by
  constructor
  · exact flatToks_lexF l.length l (Nat.le_refl _)
  · unfold lex
    rw [flatToks_lexF _ _ (Nat.le_refl _)]
    exact List.filter_eq_self.mpr fun a ha => (List.mem_filter.mp ha).2

/-! ### Parser lemmas -/

theorem take_one_of_err {i : List Token} {tok : Token} {pe : ParserError Error}
    (h : take_one_of i tok = Except.error pe) : ∃ e0, pe = ParserError.Err e0 := by
  cases i with
  | nil =>
    simp only [take_one_of, Except.error.injEq] at h
    exact ⟨Error.EndOfInput, h.symm⟩
  | cons x xs =>
    simp only [take_one_of] at h
    split_ifs at h with hx
    simp only [Except.error.injEq] at h
    exact ⟨Error.UnexpectedToken x, h.symm⟩

theorem take_one_of_ok {i r : List Token} {tok t : Token}
    (h : take_one_of i tok = Except.ok (r, t)) : i = tok :: r := by
  cases i with
  | nil => simp [take_one_of] at h
  | cons x xs =>
    simp only [take_one_of] at h
    split_ifs at h with hx
    simp only [Except.ok.injEq, Prod.mk.injEq] at h
    rw [hx, h.1]

theorem parser_no_failure :
    ∀ fuel : Nat,
      (∀ ts e, parseStatementF fuel ts ≠ some (Except.error (ParserError.Failure e))) ∧
      (∀ ts r, parseBlockF fuel ts = some r → ∃ rest b, r = Except.ok (rest, b)) := by
  intro fuel
  induction fuel with
  | zero =>
    constructor
    · intro ts e h; simp [parseStatementF] at h
    · intro ts r h; simp [parseBlockF] at h
  | succ fuel ih =>
    obtain ⟨ihS, ihB⟩ := ih
    constructor
    · intro ts e h
      cases ts with
      | nil => simp [parseStatementF] at h
      | cons t rest =>
        cases t with
        | MoveL n => simp [parseStatementF] at h
        | MoveR n => simp [parseStatementF] at h
        | Read => simp [parseStatementF] at h
        | Write => simp [parseStatementF] at h
        | Inc n => simp [parseStatementF] at h
        | Dec n => simp [parseStatementF] at h
        | JmpNoZero => simp [parseStatementF] at h
        | JmpZero =>
          simp only [parseStatementF] at h
          split at h
          · exact Option.noConfusion h
          · rename_i e2 heq
            obtain ⟨r2, b2, habs⟩ := ihB rest _ heq
            exact Except.noConfusion habs
          · rename_i input2 block heq
            split at h
            · rename_i e2 heq2
              obtain ⟨e0, rfl⟩ := take_one_of_err heq2
              simp at h
            · simp at h
    · intro ts r h
      simp only [parseBlockF] at h
      split at h
      · exact Option.noConfusion h
      · rename_i f heq
        exact absurd heq (ihS ts f)
      · exact ⟨ts, NodeBlock.mk Attr.mk [], (Option.some.inj h).symm⟩
      · rename_i rest stat heq
        split at h
        · exact Option.noConfusion h
        · rename_i e2 heq2
          obtain ⟨r2, b2, habs⟩ := ihB _ _ heq2
          exact Except.noConfusion habs
        · rename_i rest2 a stats heq2
          exact ⟨rest2, NodeBlock.mk a (stat :: stats), (Option.some.inj h).symm⟩

theorem parser_sound :
    ∀ fuel : Nat,
      (∀ ts rest s, parseStatementF fuel ts = some (Except.ok (rest, s)) →
        ts = flattenS s ++ rest) ∧
      (∀ ts rest b, parseBlockF fuel ts = some (Except.ok (rest, b)) →
        ts = flattenB b ++ rest) := by
  intro fuel
  induction fuel with
  | zero =>
    constructor
    · intro ts rest s h; simp [parseStatementF] at h
    · intro ts rest b h; simp [parseBlockF] at h
  | succ fuel ih =>
    obtain ⟨ihS, ihB⟩ := ih
    constructor
    · intro ts rest s h
      cases ts with
      | nil => simp [parseStatementF] at h
      | cons t rest0 =>
        cases t with
        | MoveL n =>
          simp only [parseStatementF, Option.some.injEq, Except.ok.injEq,
            Prod.mk.injEq] at h
          rw [← h.1, ← h.2]
          rfl
        | MoveR n =>
          simp only [parseStatementF, Option.some.injEq, Except.ok.injEq,
            Prod.mk.injEq] at h
          rw [← h.1, ← h.2]
          rfl
        | Read =>
          simp only [parseStatementF, Option.some.injEq, Except.ok.injEq,
            Prod.mk.injEq] at h
          rw [← h.1, ← h.2]
          rfl
        | Write =>
          simp only [parseStatementF, Option.some.injEq, Except.ok.injEq,
            Prod.mk.injEq] at h
          rw [← h.1, ← h.2]
          rfl
        | Inc n =>
          simp only [parseStatementF, Option.some.injEq, Except.ok.injEq,
            Prod.mk.injEq] at h
          rw [← h.1, ← h.2]
          rfl
        | Dec n =>
          simp only [parseStatementF, Option.some.injEq, Except.ok.injEq,
            Prod.mk.injEq] at h
          rw [← h.1, ← h.2]
          rfl
        | JmpNoZero => simp [parseStatementF] at h
        | JmpZero =>
          simp only [parseStatementF] at h
          split at h
          · exact Option.noConfusion h
          · simp at h
          · rename_i input2 block heq
            split at h
            · simp at h
            · rename_i input3 tk heq2
              simp only [Option.some.injEq, Except.ok.injEq, Prod.mk.injEq] at h
              obtain ⟨h1, h2⟩ := h
              have hts := ihB rest0 input2 block heq
              have hone := take_one_of_ok heq2
              rw [← h2, ← h1, hts, hone]
              simp [flattenS, List.append_assoc]
    · intro ts rest b h
      simp only [parseBlockF] at h
      split at h
      · exact Option.noConfusion h
      · simp at h
      · simp only [Option.some.injEq, Except.ok.injEq, Prod.mk.injEq] at h
        obtain ⟨rfl, rfl⟩ := h
        simp [flattenB, flattenL]
      · rename_i rest1 stat heq
        split at h
        · exact Option.noConfusion h
        · simp at h
        · rename_i rest2 a stats heq2
          simp only [Option.some.injEq, Except.ok.injEq, Prod.mk.injEq] at h
          obtain ⟨rfl, rfl⟩ := h
          have hA := ihS ts rest1 stat heq
          have hB := ihB rest1 rest2 (NodeBlock.mk a stats) heq2
          rw [hA, hB]
          simp [flattenB, flattenL, List.append_assoc]

theorem depthOk_cons_other {t : Token} (ht1 : t ≠ Token.JmpZero)
    (ht2 : t ≠ Token.JmpNoZero) (ts : List Token) (d : Nat) :
    depthOk (t :: ts) d = depthOk ts d := by
  simp [depthOk, ht1, ht2]

theorem depthOk_cons_open (ts : List Token) (d : Nat) :
    depthOk (Token.JmpZero :: ts) d = depthOk ts (d + 1) := by
  simp [depthOk]

theorem depthOk_cons_close (ts : List Token) (d : Nat) :
    depthOk (Token.JmpNoZero :: ts) (d + 1) = depthOk ts d := by
  simp [depthOk]

mutual
theorem depthOk_flattenS (s : NodeStatement) :
    ∀ (rest : List Token) (d : Nat), depthOk (flattenS s ++ rest) d = depthOk rest d := by
  intro rest d
  cases s with
  | mk a st =>
    cases st with
    | MoveL n => rw [show flattenS (NodeStatement.mk a (Statement.MoveL n)) =
        [Token.MoveL n] from rfl, List.cons_append, List.nil_append,
        depthOk_cons_other (by simp) (by simp)]
    | MoveR n => rw [show flattenS (NodeStatement.mk a (Statement.MoveR n)) =
        [Token.MoveR n] from rfl, List.cons_append, List.nil_append,
        depthOk_cons_other (by simp) (by simp)]
    | Add n => rw [show flattenS (NodeStatement.mk a (Statement.Add n)) =
        [Token.Inc n] from rfl, List.cons_append, List.nil_append,
        depthOk_cons_other (by simp) (by simp)]
    | Sub n => rw [show flattenS (NodeStatement.mk a (Statement.Sub n)) =
        [Token.Dec n] from rfl, List.cons_append, List.nil_append,
        depthOk_cons_other (by simp) (by simp)]
    | Read => rw [show flattenS (NodeStatement.mk a Statement.Read) =
        [Token.Read] from rfl, List.cons_append, List.nil_append,
        depthOk_cons_other (by simp) (by simp)]
    | Write => rw [show flattenS (NodeStatement.mk a Statement.Write) =
        [Token.Write] from rfl, List.cons_append, List.nil_append,
        depthOk_cons_other (by simp) (by simp)]
    | Loop b =>
      rw [show flattenS (NodeStatement.mk a (Statement.Loop b)) =
        Token.JmpZero :: (flattenB b ++ [Token.JmpNoZero]) from rfl]
      rw [List.cons_append, depthOk_cons_open, List.append_assoc,
        depthOk_flattenB b ([Token.JmpNoZero] ++ rest) (d + 1),
        List.cons_append, List.nil_append, depthOk_cons_close]
theorem depthOk_flattenB (b : NodeBlock) :
    ∀ (rest : List Token) (d : Nat), depthOk (flattenB b ++ rest) d = depthOk rest d := by
  intro rest d
  cases b with
  | mk a stats =>
    rw [show flattenB (NodeBlock.mk a stats) = flattenL stats from rfl]
    exact depthOk_flattenL stats rest d
theorem depthOk_flattenL (l : List NodeStatement) :
    ∀ (rest : List Token) (d : Nat), depthOk (flattenL l ++ rest) d = depthOk rest d := by
  intro rest d
  cases l with
  | nil => rw [show flattenL [] = ([] : List Token) from rfl, List.nil_append]
  | cons s tl =>
    rw [show flattenL (s :: tl) = flattenS s ++ flattenL tl from rfl, List.append_assoc,
      depthOk_flattenS s (flattenL tl ++ rest) d, depthOk_flattenL tl rest d]
end

theorem balanced_flattenB (b : NodeBlock) : balancedTokens (flattenB b) = true := by
  unfold balancedTokens
  have h := depthOk_flattenB b [] 0
  rw [← List.append_nil (flattenB b), h]
  rfl

theorem parse_ok_sound {ts : List Token} {ast : NodeBlock}
    (h : parse ts = Except.ok ast) : ts = flattenB ast := by
  unfold parse at h
  split at h
  · exact Except.noConfusion h
  · exact Except.noConfusion h
  · exact Except.noConfusion h
  · rename_i rest ast2 heq
    split_ifs at h with he
    · have hrest : rest = [] := by simpa using he
      have hsound := (parser_sound _).2 ts rest ast2 heq
      obtain rfl := Except.ok.inj h
      rw [hsound, hrest, List.append_nil]

theorem parse_error_eoi :
    ∀ (ts : List Token) (e : Error), parse ts = Except.error e → e = Error.EndOfInput := by
  intro ts e h
  unfold parse at h
  split at h
  · exact (Except.error.inj h).symm
  · rename_i e0 heq
    obtain ⟨r2, b2, habs⟩ := (parser_no_failure _).2 ts _ heq
    exact Except.noConfusion habs
  · rename_i e0 heq
    obtain ⟨r2, b2, habs⟩ := (parser_no_failure _).2 ts _ heq
    exact Except.noConfusion habs
  · split_ifs at h with he
    exact (Except.error.inj h).symm

/-- C1 counterexample: top-level parsing of the one-token sequence
consisting of a stray `JmpNoZero` (a `]` with no enclosing loop) returns
the `EndOfInput` error, not `UnexpectedToken`: the block parser treats
the unexpected-token failure of its statement parser as end of block, so
the stray token is reported by the whole-input-consumed check, which
produces `EndOfInput`. -/
theorem c1_stray_close_counterexample :
    parse [Token.JmpNoZero] = Except.error Error.EndOfInput ∧
    parse [Token.JmpNoZero] ≠ Except.error (Error.UnexpectedToken Token.JmpNoZero) := by
  refine ⟨rfl, ?_⟩
  intro h
  have h0 : parse [Token.JmpNoZero] = Except.error Error.EndOfInput := rfl
  rw [h0] at h
  injection h with h1
  exact Error.noConfusion h1

/-- C1 amended: every error the top-level parse returns is `EndOfInput`
(in particular `UnexpectedToken` never escapes the top level), and
parsing any token sequence whose loop brackets are not balanced — an
unmatched `JmpZero` as well as a stray `JmpNoZero` — returns the
`EndOfInput` error. -/
theorem c1_unbalanced_parse_end_of_input :
    (∀ (ts : List Token) (e : Error), parse ts = Except.error e → e = Error.EndOfInput) ∧
    (∀ ts : List Token, balancedTokens ts = false → parse ts = Except.error Error.EndOfInput) := by
  constructor
  · exact parse_error_eoi
  · intro ts hbal
    cases hp : parse ts with
    | ok ast =>
      have hts := parse_ok_sound hp
      have htrue := balanced_flattenB ast
      rw [← hts] at htrue
      rw [htrue] at hbal
      exact Bool.noConfusion hbal
    | error e =>
      rw [parse_error_eoi ts e hp]

/-- C1 witness: the unbalanced one-token sequence `[JmpZero]` (an
unmatched `[`) parses to the `EndOfInput` error. -/
theorem c1_unbalanced_witness :
    balancedTokens [Token.JmpZero] = false ∧
    parse [Token.JmpZero] = Except.error Error.EndOfInput :=
  ⟨rfl, c1_unbalanced_parse_end_of_input.2 [Token.JmpZero] rfl⟩

theorem flattenS_ne_nil (s : NodeStatement) : flattenS s ≠ [] := by
  cases s with
  | mk a st => cases st <;> simp [flattenS]

theorem parseStatementF_consumes {fuel : Nat} {ts rest : List Token} {s : NodeStatement}
    (h : parseStatementF fuel ts = some (Except.ok (rest, s))) :
    rest.length < ts.length := by
  have hts := (parser_sound fuel).1 ts rest s h
  have hpos : 0 < (flattenS s).length := List.length_pos.mpr (flattenS_ne_nil s)
  rw [hts, List.length_append]
  omega

theorem parser_fuel_mono :
    ∀ f₁ : Nat,
      (∀ ts r, parseStatementF f₁ ts = some r →
        ∀ f₂, f₁ ≤ f₂ → parseStatementF f₂ ts = some r) ∧
      (∀ ts r, parseBlockF f₁ ts = some r →
        ∀ f₂, f₁ ≤ f₂ → parseBlockF f₂ ts = some r) := by
  intro f₁
  induction f₁ with
  | zero =>
    constructor
    · intro ts r h; simp [parseStatementF] at h
    · intro ts r h; simp [parseBlockF] at h
  | succ f₁ ih =>
    obtain ⟨ihS, ihB⟩ := ih
    constructor
    · intro ts r h f₂ hf
      obtain ⟨f₂, rfl⟩ : ∃ g, f₂ = g + 1 := ⟨f₂ - 1, by omega⟩
      have hf2 : f₁ ≤ f₂ := by omega
      cases ts with
      | nil => simp only [parseStatementF] at h ⊢; exact h
      | cons t rest =>
        cases t with
        | MoveL n => simp only [parseStatementF] at h ⊢; exact h
        | MoveR n => simp only [parseStatementF] at h ⊢; exact h
        | Read => simp only [parseStatementF] at h ⊢; exact h
        | Write => simp only [parseStatementF] at h ⊢; exact h
        | Inc n => simp only [parseStatementF] at h ⊢; exact h
        | Dec n => simp only [parseStatementF] at h ⊢; exact h
        | JmpNoZero => simp only [parseStatementF] at h ⊢; exact h
        | JmpZero =>
          simp only [parseStatementF] at h ⊢
          split at h
          · exact Option.noConfusion h
          · rename_i e heq
            simp only [ihB rest _ heq f₂ hf2]
            exact h
          · rename_i input2 block heq
            simp only [ihB rest _ heq f₂ hf2]
            exact h
    · intro ts r h f₂ hf
      obtain ⟨f₂, rfl⟩ : ∃ g, f₂ = g + 1 := ⟨f₂ - 1, by omega⟩
      have hf2 : f₁ ≤ f₂ := by omega
      simp only [parseBlockF] at h ⊢
      split at h
      · exact Option.noConfusion h
      · rename_i f heq
        simp only [ihS ts _ heq f₂ hf2]
        exact h
      · rename_i e heq
        simp only [ihS ts _ heq f₂ hf2]
        exact h
      · rename_i rest stat heq
        simp only [ihS ts _ heq f₂ hf2]
        split at h
        · exact Option.noConfusion h
        · rename_i e2 heq2
          simp only [ihB rest _ heq2 f₂ hf2]
          exact h
        · rename_i rest2 a stats heq2
          simp only [ihB rest _ heq2 f₂ hf2]
          exact h

theorem parseBlockF_succ (fuel : Nat) (input : List Token) :
    parseBlockF (fuel + 1) input =
      match parseStatementF fuel input with
      | none => none
      | some (Except.error (ParserError.Failure f)) =>
        some (Except.error (ParserError.Failure f))
      | some (Except.error (ParserError.Err _)) =>
        some (Except.ok (input, NodeBlock.mk Attr.mk []))
      | some (Except.ok (rest, stat)) =>
        match parseBlockF fuel rest with
        | none => none
        | some (Except.error e) => some (Except.error e)
        | some (Except.ok (rest2, NodeBlock.mk a stats)) =>
          some (Except.ok (rest2, NodeBlock.mk a (stat :: stats))) := rfl

theorem parser_fuel_suff :
    ∀ n : Nat,
      (∀ ts : List Token, ts.length ≤ n → parseStatementF (2 * n + 1) ts ≠ none) ∧
      (∀ ts : List Token, ts.length ≤ n → parseBlockF (2 * n + 2) ts ≠ none) := by
  intro n
  induction n with
  | zero =>
    constructor
    · intro ts h
      have hnil : ts = [] := List.length_eq_zero.mp (Nat.le_zero.mp h)
      subst hnil
      simp [parseStatementF]
    · intro ts h
      have hnil : ts = [] := List.length_eq_zero.mp (Nat.le_zero.mp h)
      subst hnil
      intro hc
      rw [show parseBlockF 2 ([] : List Token) =
        some (Except.ok ([], NodeBlock.mk Attr.mk [])) from rfl] at hc
      exact Option.noConfusion hc
  | succ n ih =>
    obtain ⟨ihS, ihB⟩ := ih
    have hS : ∀ ts : List Token, ts.length ≤ n + 1 →
        parseStatementF (2 * (n + 1) + 1) ts ≠ none := by
      intro ts hlen
      have h23 : 2 * (n + 1) + 1 = (2 * n + 2) + 1 := by ring
      rw [h23]
      cases ts with
      | nil => simp [parseStatementF]
      | cons t rest =>
        have hrest : rest.length ≤ n := by
          simp only [List.length_cons] at hlen; omega
        cases t with
        | MoveL n0 => simp [parseStatementF]
        | MoveR n0 => simp [parseStatementF]
        | Read => simp [parseStatementF]
        | Write => simp [parseStatementF]
        | Inc n0 => simp [parseStatementF]
        | Dec n0 => simp [parseStatementF]
        | JmpNoZero => simp [parseStatementF]
        | JmpZero =>
          intro hc
          simp only [parseStatementF] at hc
          cases hb : parseBlockF (2 * n + 2) rest with
          | none => exact ihB rest hrest hb
          | some r =>
            obtain ⟨rest2, b, rfl⟩ := (parser_no_failure _).2 rest r hb
            simp only [hb] at hc
            cases hto : take_one_of rest2 Token.JmpNoZero with
            | error pe =>
              simp only [hto] at hc
              exact Option.noConfusion hc
            | ok pr =>
              obtain ⟨r3, tk⟩ := pr
              simp only [hto] at hc
              exact Option.noConfusion hc
    refine ⟨hS, ?_⟩
    intro ts hlen hc
    have h24 : 2 * (n + 1) + 2 = (2 * (n + 1) + 1) + 1 := by ring
    rw [h24, parseBlockF_succ] at hc
    cases hs : parseStatementF (2 * (n + 1) + 1) ts with
    | none => exact hS ts hlen hs
    | some res =>
      simp only [hs] at hc
      cases res with
      | error pe => cases pe <;> simp at hc
      | ok pr =>
        obtain ⟨rest, stat⟩ := pr
        have hcons := parseStatementF_consumes hs
        cases hb : parseBlockF (2 * n + 2) rest with
        | none => exact ihB rest (by omega) hb
        | some r2 =>
          have hb2 := (parser_fuel_mono (2 * n + 2)).2 rest r2 hb
            (2 * (n + 1) + 1) (by omega)
          simp only [hb2] at hc
          cases r2 with
          | error e => simp at hc
          | ok pr2 =>
            obtain ⟨rest2, b2⟩ := pr2
            cases b2 with
            | mk a stats => simp at hc

/-- The fuel used by `parse` is always sufficient: the fuel-exhaustion
branch of `parse` is unreachable. -/
theorem parseBlockF_fuel (ts : List Token) : parseBlockF (2 * ts.length + 2) ts ≠ none :=
  (parser_fuel_suff ts.length).2 ts (Nat.le_refl _)

/-! ### Decimal rendering and label lemmas -/

theorem charVal_decChar : ∀ d : Nat, d < 10 → charVal (decChar d) = d := by
  intro d h
  interval_cases d <;> rfl

theorem listVal_append (l : List Char) (c : Char) :
    listVal (l ++ [c]) = 10 * listVal l + charVal c := by
  unfold listVal
  rw [List.foldl_append]
  rfl

theorem decStrAux_val : ∀ fuel n : Nat, n ≤ fuel → listVal (decStrAux fuel n) = n := by
  intro fuel
  induction fuel with
  | zero =>
    intro n h
    have hn : n = 0 := Nat.le_zero.mp h
    subst hn
    rfl
  | succ fuel ih =>
    intro n h
    by_cases hn : n = 0
    · subst hn; rfl
    · simp only [decStrAux, if_neg hn]
      rw [listVal_append, ih (n / 10) (by omega),
        charVal_decChar (n % 10) (Nat.mod_lt n (by norm_num))]
      omega

theorem decStr_inj : ∀ {m n : Nat}, decStr m = decStr n → m = n := by
  intro m n h
  by_cases hm : m = 0 <;> by_cases hn : n = 0
  · omega
  · exfalso
    subst hm
    simp only [decStr, if_pos rfl, if_neg hn] at h
    have hdata : (["0".data.head!] : List Char) = ["0".data.head!] := rfl
    have hlist : ("0" : String).data = decStrAux n n := congrArg String.data h
    have hval := decStrAux_val n n (Nat.le_refl n)
    rw [← hlist] at hval
    rw [show listVal ("0" : String).data = 0 from rfl] at hval
    exact hn hval.symm
  · exfalso
    subst hn
    simp only [decStr, if_pos rfl, if_neg hm] at h
    have hlist : decStrAux m m = ("0" : String).data := congrArg String.data h
    have hval := decStrAux_val m m (Nat.le_refl m)
    rw [hlist] at hval
    rw [show listVal ("0" : String).data = 0 from rfl] at hval
    exact hm hval.symm
  · simp only [decStr, if_neg hm, if_neg hn] at h
    have hlist : decStrAux m m = decStrAux n n := congrArg String.data h
    have h1 := decStrAux_val m m (Nat.le_refl m)
    have h2 := decStrAux_val n n (Nat.le_refl n)
    rw [hlist] at h1
    omega

theorem data_text_loop : ("loop" : String).data = 'l' :: ['o', 'o', 'p'] := rfl

theorem data_text_end : ("end" : String).data = 'e' :: ['n', 'd'] := rfl

theorem data_text_cont : ("cont" : String).data = 'c' :: ['o', 'n', 't'] := rfl

theorem data_text_halt : ("halt" : String).data = 'h' :: ['a', 'l', 't'] := rfl

theorem data_text_runtime : ("runtime" : String).data = 'r' :: "untime".data := rfl

theorem data_text_start : ("start" : String).data = 's' :: "tart".data := rfl

theorem renderLabel_inj : ∀ {k₁ k₂ : LabelKind} {c₁ c₂ : Nat},
    renderLabel k₁ c₁ = renderLabel k₂ c₂ → k₁ = k₂ ∧ c₁ = c₂ := by
  intro k₁ k₂ c₁ c₂ h
  have hdata := congrArg String.data h
  cases k₁ <;> cases k₂ <;>
    simp only [renderLabel, kindText, String.data_append, data_text_loop, data_text_end,
      data_text_cont, data_text_halt, List.cons_append, List.nil_append,
      List.cons.injEq, eq_self_iff_true, true_and, and_true] at hdata <;>
    first
    | exact absurd hdata.1 (by decide)
    | exact ⟨rfl, decStr_inj (String.ext hdata)⟩

theorem renderLabel_inj_fun :
    Function.Injective (fun pc : LabelKind × Nat => renderLabel pc.1 pc.2) := by
  intro p q h
  obtain ⟨h1, h2⟩ := renderLabel_inj h
  exact Prod.ext h1 h2

theorem renderLabel_ne_runtime (k : LabelKind) (c : Nat) :
    renderLabel k c ≠ "runtime" := by
  intro h
  have hdata := congrArg String.data h
  cases k <;>
    simp only [renderLabel, kindText, String.data_append, data_text_loop, data_text_end,
      data_text_cont, data_text_halt, data_text_runtime, List.cons_append,
      List.nil_append, List.cons.injEq] at hdata <;>
    exact absurd hdata.1 (by decide)

theorem renderLabel_ne_start (k : LabelKind) (c : Nat) :
    renderLabel k c ≠ "start" := by
  intro h
  have hdata := congrArg String.data h
  cases k <;>
    simp only [renderLabel, kindText, String.data_append, data_text_loop, data_text_end,
      data_text_cont, data_text_halt, data_text_start, List.cons_append,
      List.nil_append, List.cons.injEq] at hdata <;>
    exact absurd hdata.1 (by decide)

/-! ### Code generator lemmas -/

theorem generate_bounds_check_items (g : QbeGenerator) :
    (generate_bounds_check g).1 =
      [FuncItem.assign (Value.Temporary ("v" ++ decStr (g.tmp_counter + 1))) Ty.Long
         (Instr.Sub generate_ptr (Value.Temporary "tape")),
       FuncItem.assign (Value.Temporary ("v" ++ decStr (g.tmp_counter + 2))) Ty.Long
         (Instr.Cmp Ty.Long CmpOp.Sgt (Value.Const (g.tape_len / 2))
           (Value.Temporary ("v" ++ decStr (g.tmp_counter + 1)))),
       FuncItem.instr (Instr.Jnz (Value.Temporary ("v" ++ decStr (g.tmp_counter + 2)))
         ("cont" ++ decStr g.label_counter) ("halt" ++ decStr (g.label_counter + 1))),
       FuncItem.block ("halt" ++ decStr (g.label_counter + 1)),
       FuncItem.instr (Instr.Ret (some (Value.Const 1))),
       FuncItem.block ("cont" ++ decStr g.label_counter)] := rfl

theorem generate_bounds_check_state (g : QbeGenerator) :
    (generate_bounds_check g).2 =
      { g with label_counter := g.label_counter + 2, tmp_counter := g.tmp_counter + 3 } :=
  rfl

theorem generate_statement_moveL (g : QbeGenerator) (a : Attr) (n : Nat) :
    generate_statement g (NodeStatement.mk a (Statement.MoveL n)) =
      (FuncItem.assign generate_ptr Ty.Long
         (Instr.Sub generate_ptr (Value.Const (n * 8))) :: (generate_bounds_check g).1,
       (generate_bounds_check g).2) := rfl

theorem generate_statement_moveR (g : QbeGenerator) (a : Attr) (n : Nat) :
    generate_statement g (NodeStatement.mk a (Statement.MoveR n)) =
      (FuncItem.assign generate_ptr Ty.Long
         (Instr.Add generate_ptr (Value.Const (n * 8))) :: (generate_bounds_check g).1,
       (generate_bounds_check g).2) := rfl

theorem generate_statement_loop (g : QbeGenerator) (a : Attr) (b : NodeBlock) :
    generate_statement g (NodeStatement.mk a (Statement.Loop b)) =
      ([FuncItem.assign (Value.Temporary ("v" ++ decStr g.tmp_counter)) Ty.Word
          (Instr.Load Ty.Word generate_ptr),
        FuncItem.instr (Instr.Jnz (Value.Temporary ("v" ++ decStr g.tmp_counter))
          ("loop" ++ decStr g.label_counter) ("end" ++ decStr g.label_counter)),
        FuncItem.block ("loop" ++ decStr g.label_counter)] ++
       (generate_block
         { g with label_counter := g.label_counter + 1, tmp_counter := g.tmp_counter + 1 }
         b).1 ++
       [FuncItem.assign (Value.Temporary ("v" ++ decStr g.tmp_counter)) Ty.Word
          (Instr.Load Ty.Word generate_ptr),
        FuncItem.instr (Instr.Jnz (Value.Temporary ("v" ++ decStr g.tmp_counter))
          ("loop" ++ decStr g.label_counter) ("end" ++ decStr g.label_counter)),
        FuncItem.block ("end" ++ decStr g.label_counter)],
       (generate_block
         { g with label_counter := g.label_counter + 1, tmp_counter := g.tmp_counter + 1 }
         b).2) := rfl

theorem retsOf_append (l₁ l₂ : List FuncItem) :
    retsOf (l₁ ++ l₂) = retsOf l₁ ++ retsOf l₂ :=
  List.filterMap_append l₁ l₂ _

theorem labelsOf_append (l₁ l₂ : List FuncItem) :
    labelsOf (l₁ ++ l₂) = labelsOf l₁ ++ labelsOf l₂ :=
  List.filterMap_append l₁ l₂ _

theorem allocsOf_append (l₁ l₂ : List FuncItem) :
    allocsOf (l₁ ++ l₂) = allocsOf l₁ ++ allocsOf l₂ :=
  List.filterMap_append l₁ l₂ _

mutual
theorem retsOf_statement (g : QbeGenerator) (s : NodeStatement) :
    retsOf (generate_statement g s).1 =
      List.replicate (movesS s) (some (Value.Const 1)) := by
  cases s with
  | mk a st =>
    cases st with
    | MoveL n => rfl
    | MoveR n => rfl
    | Add n => rfl
    | Sub n => rfl
    | Read => rfl
    | Write => rfl
    | Loop b =>
      rw [generate_statement_loop]
      show retsOf (_ ++ _ ++ _) = _
      rw [retsOf_append, retsOf_append, retsOf_block _ b]
      simp [retsOf, movesS]
theorem retsOf_block (g : QbeGenerator) (b : NodeBlock) :
    retsOf (generate_block g b).1 =
      List.replicate (movesB b) (some (Value.Const 1)) := by
  cases b with
  | mk a stats => exact retsOf_stats g stats
theorem retsOf_stats (g : QbeGenerator) (l : List NodeStatement) :
    retsOf (generate_stats g l).1 =
      List.replicate (movesL l) (some (Value.Const 1)) := by
  cases l with
  | nil => rfl
  | cons s rest =>
    show retsOf ((generate_statement g s).1 ++
      (generate_stats (generate_statement g s).2 rest).1) = _
    rw [retsOf_append, retsOf_statement g s, retsOf_stats _ rest,
      show movesL (s :: rest) = movesS s + movesL rest from rfl, List.replicate_add]
end

theorem retsOf_gen (g : QbeGenerator) (a : NodeBlock) :
    retsOf (gen g a).1 =
      List.replicate (movesB a) (some (Value.Const 1)) ++ [some (Value.Const 0)] := by
  have h1 : retsOf (gen g a).1 =
      retsOf ((generate_block (generate_runtime g).2 a).1 ++
        [FuncItem.instr (Instr.Ret (some (Value.Const 0)))]) := rfl
  rw [h1, retsOf_append, retsOf_block]
  rfl

mutual
theorem allocsOf_statement (g : QbeGenerator) (s : NodeStatement) :
    allocsOf (generate_statement g s).1 = [] := by
  cases s with
  | mk a st =>
    cases st with
    | MoveL n => rfl
    | MoveR n => rfl
    | Add n => rfl
    | Sub n => rfl
    | Read => rfl
    | Write => rfl
    | Loop b =>
      rw [generate_statement_loop]
      show allocsOf (_ ++ _ ++ _) = _
      rw [allocsOf_append, allocsOf_append, allocsOf_block _ b]
      simp [allocsOf]
theorem allocsOf_block (g : QbeGenerator) (b : NodeBlock) :
    allocsOf (generate_block g b).1 = [] := by
  cases b with
  | mk a stats => exact allocsOf_stats g stats
theorem allocsOf_stats (g : QbeGenerator) (l : List NodeStatement) :
    allocsOf (generate_stats g l).1 = [] := by
  cases l with
  | nil => rfl
  | cons s rest =>
    show allocsOf ((generate_statement g s).1 ++
      (generate_stats (generate_statement g s).2 rest).1) = _
    rw [allocsOf_append, allocsOf_statement g s, allocsOf_stats _ rest]
    rfl
end

theorem allocsOf_gen (g : QbeGenerator) (a : NodeBlock) :
    allocsOf (gen g a).1 = [g.tape_len] := by
  have h1 : allocsOf (gen g a).1 =
      g.tape_len :: allocsOf ((generate_block (generate_runtime g).2 a).1 ++
        [FuncItem.instr (Instr.Ret (some (Value.Const 0)))]) := rfl
  rw [h1, allocsOf_append, allocsOf_block]
  rfl

mutual
theorem labels_statement (g : QbeGenerator) (s : NodeStatement) :
    ∃ pairs : List (LabelKind × Nat),
      labelsOf (generate_statement g s).1 =
        pairs.map (fun pc => renderLabel pc.1 pc.2) ∧
      pairs.Nodup ∧
      (∀ pc ∈ pairs, g.label_counter ≤ pc.2 ∧
        pc.2 < (generate_statement g s).2.label_counter) ∧
      g.label_counter ≤ (generate_statement g s).2.label_counter := by
  cases s with
  | mk a st =>
    cases st with
    | MoveL n =>
      refine ⟨[(LabelKind.lHalt, g.label_counter + 1), (LabelKind.lCont, g.label_counter)],
        rfl, by simp, ?_, Nat.le_add_right g.label_counter 2⟩
      intro pc hpc
      rcases List.mem_cons.mp hpc with rfl | h2
      · exact ⟨Nat.le_succ _, Nat.lt_succ_self _⟩
      · rcases List.mem_singleton.mp h2 with rfl
        exact ⟨Nat.le_refl _,
          (Nat.lt_add_of_pos_right (by decide) : g.label_counter < g.label_counter + 2)⟩
    | MoveR n =>
      refine ⟨[(LabelKind.lHalt, g.label_counter + 1), (LabelKind.lCont, g.label_counter)],
        rfl, by simp, ?_, Nat.le_add_right g.label_counter 2⟩
      intro pc hpc
      rcases List.mem_cons.mp hpc with rfl | h2
      · exact ⟨Nat.le_succ _, Nat.lt_succ_self _⟩
      · rcases List.mem_singleton.mp h2 with rfl
        exact ⟨Nat.le_refl _,
          (Nat.lt_add_of_pos_right (by decide) : g.label_counter < g.label_counter + 2)⟩
    | Add n => exact ⟨[], rfl, List.nodup_nil, by simp, Nat.le_refl _⟩
    | Sub n => exact ⟨[], rfl, List.nodup_nil, by simp, Nat.le_refl _⟩
    | Read => exact ⟨[], rfl, List.nodup_nil, by simp, Nat.le_refl _⟩
    | Write => exact ⟨[], rfl, List.nodup_nil, by simp, Nat.le_refl _⟩
    | Loop b =>
      obtain ⟨bp, hmap, hnodup, hbounds, hmono⟩ :=
        labels_block
          { g with label_counter := g.label_counter + 1, tmp_counter := g.tmp_counter + 1 } b
      have hb1 : ∀ pc ∈ bp, g.label_counter + 1 ≤ pc.2 ∧
          pc.2 < (generate_statement g
            (NodeStatement.mk a (Statement.Loop b))).2.label_counter := hbounds
      have hm1 : g.label_counter + 1 ≤ (generate_statement g
          (NodeStatement.mk a (Statement.Loop b))).2.label_counter := hmono
      refine ⟨(LabelKind.lLoop, g.label_counter) :: bp ++ [(LabelKind.lEnd, g.label_counter)],
        ?_, ?_, ?_, ?_⟩
      · rw [generate_statement_loop]
        show labelsOf (_ ++ _ ++ _) = _
        rw [labelsOf_append, labelsOf_append, hmap]
        simp [labelsOf, renderLabel, kindText]
      · rw [List.nodup_append]
        refine ⟨?_, List.nodup_singleton _, ?_⟩
        · rw [List.nodup_cons]
          constructor
          · intro hin
            have h2 : g.label_counter + 1 ≤ g.label_counter := (hb1 _ hin).1
            omega
          · exact hnodup
        · intro pc hin hsing
          rcases List.mem_singleton.mp hsing with rfl
          rcases List.mem_cons.mp hin with heq | hin2
          · simp at heq
          · have h2 : g.label_counter + 1 ≤ g.label_counter := (hb1 _ hin2).1
            omega
      · intro pc hpc
        rcases List.mem_append.mp hpc with hin | hsing
        · rcases List.mem_cons.mp hin with rfl | hin2
          · exact ⟨Nat.le_refl _, Nat.lt_of_lt_of_le (Nat.lt_succ_self _) hm1⟩
          · obtain ⟨hl, hr⟩ := hb1 pc hin2
            exact ⟨by omega, hr⟩
        · rcases List.mem_singleton.mp hsing with rfl
          exact ⟨Nat.le_refl _, Nat.lt_of_lt_of_le (Nat.lt_succ_self _) hm1⟩
      · omega
theorem labels_block (g : QbeGenerator) (b : NodeBlock) :
    ∃ pairs : List (LabelKind × Nat),
      labelsOf (generate_block g b).1 =
        pairs.map (fun pc => renderLabel pc.1 pc.2) ∧
      pairs.Nodup ∧
      (∀ pc ∈ pairs, g.label_counter ≤ pc.2 ∧
        pc.2 < (generate_block g b).2.label_counter) ∧
      g.label_counter ≤ (generate_block g b).2.label_counter := by
  cases b with
  | mk a stats => exact labels_stats g stats
theorem labels_stats (g : QbeGenerator) (l : List NodeStatement) :
    ∃ pairs : List (LabelKind × Nat),
      labelsOf (generate_stats g l).1 =
        pairs.map (fun pc => renderLabel pc.1 pc.2) ∧
      pairs.Nodup ∧
      (∀ pc ∈ pairs, g.label_counter ≤ pc.2 ∧
        pc.2 < (generate_stats g l).2.label_counter) ∧
      g.label_counter ≤ (generate_stats g l).2.label_counter := by
  cases l with
  | nil => exact ⟨[], rfl, List.nodup_nil, by simp, Nat.le_refl _⟩
  | cons s rest =>
    obtain ⟨ps, hmapS, hnodupS, hboundsS, hmonoS⟩ := labels_statement g s
    obtain ⟨qs, hmapQ, hnodupQ, hboundsQ, hmonoQ⟩ :=
      labels_stats (generate_statement g s).2 rest
    refine ⟨ps ++ qs, ?_, ?_, ?_, ?_⟩
    · show labelsOf ((generate_statement g s).1 ++
        (generate_stats (generate_statement g s).2 rest).1) = _
      rw [labelsOf_append, hmapS, hmapQ, List.map_append]
    · rw [List.nodup_append]
      refine ⟨hnodupS, hnodupQ, ?_⟩
      intro pc hinS hinQ
      have h1 := (hboundsS pc hinS).2
      have h2 := (hboundsQ pc hinQ).1
      omega
    · show ∀ pc ∈ ps ++ qs, g.label_counter ≤ pc.2 ∧
        pc.2 < (generate_stats (generate_statement g s).2 rest).2.label_counter
      intro pc hpc
      rcases List.mem_append.mp hpc with hin | hin
      · obtain ⟨hl, hr⟩ := hboundsS pc hin
        exact ⟨hl, by omega⟩
      · obtain ⟨hl, hr⟩ := hboundsQ pc hin
        exact ⟨by omega, hr⟩
    · show g.label_counter ≤
        (generate_stats (generate_statement g s).2 rest).2.label_counter
      omega
end

theorem labelsOf_gen_nodup (g : QbeGenerator) (a : NodeBlock) :
    (labelsOf (gen g a).1).Nodup := by
  obtain ⟨pairs, hmap, hnodup, hbounds, hmono⟩ := labels_block (generate_runtime g).2 a
  have h1 : labelsOf (gen g a).1 =
      "runtime" :: "start" :: labelsOf ((generate_block (generate_runtime g).2 a).1 ++
        [FuncItem.instr (Instr.Ret (some (Value.Const 0)))]) := rfl
  rw [h1, labelsOf_append, hmap,
    show labelsOf [FuncItem.instr (Instr.Ret (some (Value.Const 0)))] = [] from rfl,
    List.append_nil, List.nodup_cons, List.nodup_cons]
  refine ⟨?_, ?_, hnodup.map renderLabel_inj_fun⟩
  · intro hmem
    rcases List.mem_cons.mp hmem with heq | hmem2
    · exact absurd heq (by decide)
    · rcases List.mem_map.mp hmem2 with ⟨pc, hpc, hren⟩
      exact renderLabel_ne_runtime pc.1 pc.2 hren
  · intro hmem
    rcases List.mem_map.mp hmem with ⟨pc, hpc, hren⟩
    exact renderLabel_ne_start pc.1 pc.2 hren

/-- C2: the emitted bounds-check guard computes the offset as pointer
minus tape base, compares half the total tape capacity against it with
a signed greater-than, branches to a continuation block or to a halt
block returning status 1; and, over the whole generated procedure, the
return values emitted are exactly one status-1 return per guard (one
per pointer move, the only nonzero status anywhere) followed by the
final status-0 return of normal termination. -/
theorem c2_bounds_guard_and_returns :
    (∀ g : QbeGenerator, (generate_bounds_check g).1 =
      [FuncItem.assign (Value.Temporary ("v" ++ decStr (g.tmp_counter + 1))) Ty.Long
         (Instr.Sub generate_ptr (Value.Temporary "tape")),
       FuncItem.assign (Value.Temporary ("v" ++ decStr (g.tmp_counter + 2))) Ty.Long
         (Instr.Cmp Ty.Long CmpOp.Sgt (Value.Const (g.tape_len / 2))
           (Value.Temporary ("v" ++ decStr (g.tmp_counter + 1)))),
       FuncItem.instr (Instr.Jnz (Value.Temporary ("v" ++ decStr (g.tmp_counter + 2)))
         ("cont" ++ decStr g.label_counter) ("halt" ++ decStr (g.label_counter + 1))),
       FuncItem.block ("halt" ++ decStr (g.label_counter + 1)),
       FuncItem.instr (Instr.Ret (some (Value.Const 1))),
       FuncItem.block ("cont" ++ decStr g.label_counter)]) ∧
    (∀ (g : QbeGenerator) (a : NodeBlock),
      retsOf (gen g a).1 =
        List.replicate (movesB a) (some (Value.Const 1)) ++ [some (Value.Const 0)]) :=
  ⟨generate_bounds_check_items, retsOf_gen⟩

/-- C3 counterexample: the runtime prologue allocates 16 x 30000 =
480000 bytes, which is not the 8 x 30000 = 240000 bytes of 30000
conceptual cells at the 8-byte stride the claim states. -/
theorem c3_alloc_size_counterexample :
    allocsOf (gen QbeGenerator.new (NodeBlock.mk Attr.mk [])).1 = [16 * 30000] ∧
    (16 * 30000 : Nat) ≠ 8 * 30000 :=
  ⟨rfl, by decide⟩

/-- C3 amended: the runtime prologue allocates exactly one contiguous
region, of `tape_len` = 16 x 30000 = 480000 bytes (twice the 8-byte
stride capacity; the bounds check confines execution to half of it,
which is 30000 cells of 8 bytes), and every MoveL(n)/MoveR(n)
statement adjusts the pointer by exactly n x 8 bytes. -/
theorem c3_tape_allocation_and_stride :
    QbeGenerator.new.tape_len = 16 * 30000 ∧
    (∀ g : QbeGenerator, (generate_runtime g).1 =
      [FuncItem.assign (Value.Temporary "tape") Ty.Long (Instr.Alloc8 g.tape_len),
       FuncItem.assign generate_ptr Ty.Long (Instr.Copy (Value.Temporary "tape"))]) ∧
    (∀ (g : QbeGenerator) (a : NodeBlock), allocsOf (gen g a).1 = [g.tape_len]) ∧
    (∀ (g : QbeGenerator) (a : Attr) (n : Nat),
      (generate_statement g (NodeStatement.mk a (Statement.MoveL n))).1 =
        FuncItem.assign generate_ptr Ty.Long
          (Instr.Sub generate_ptr (Value.Const (n * 8))) :: (generate_bounds_check g).1) ∧
    (∀ (g : QbeGenerator) (a : Attr) (n : Nat),
      (generate_statement g (NodeStatement.mk a (Statement.MoveR n))).1 =
        FuncItem.assign generate_ptr Ty.Long
          (Instr.Add generate_ptr (Value.Const (n * 8))) :: (generate_bounds_check g).1) :=
  ⟨rfl, fun _ => rfl, allocsOf_gen, fun _ _ _ => rfl, fun _ _ _ => rfl⟩

/-- C4: each MoveL/MoveR statement lowers to its pointer update
immediately followed by the guard sequence, and counting the status-1
returns (one per guard, nothing else emits one) shows that every
statement emits exactly as many guards as it contains MoveL/MoveR
statements — in particular Add, Subtract, Read, Write and the loop
scaffolding itself emit none. -/
theorem c4_guard_placement :
    (∀ (g : QbeGenerator) (a : Attr) (n : Nat),
      (generate_statement g (NodeStatement.mk a (Statement.MoveL n))).1 =
        FuncItem.assign generate_ptr Ty.Long
          (Instr.Sub generate_ptr (Value.Const (n * 8))) :: (generate_bounds_check g).1) ∧
    (∀ (g : QbeGenerator) (a : Attr) (n : Nat),
      (generate_statement g (NodeStatement.mk a (Statement.MoveR n))).1 =
        FuncItem.assign generate_ptr Ty.Long
          (Instr.Add generate_ptr (Value.Const (n * 8))) :: (generate_bounds_check g).1) ∧
    (∀ (g : QbeGenerator) (s : NodeStatement),
      retsOf (generate_statement g s).1 =
        List.replicate (movesS s) (some (Value.Const 1))) :=
  ⟨fun _ _ _ => rfl, fun _ _ _ => rfl, retsOf_statement⟩

/-- C5: lowering a Loop emits, in order, the initial cell load with a
conditional branch entering a fresh begin label or jumping to a fresh
end label, the lowered nested block, and the reload with the
back-branch falling through to the end label; and across any AST all
emitted block labels — in particular all loop begin/end labels — are
pairwise distinct. -/
theorem c5_loop_lowering_and_label_uniqueness :
    (∀ (g : QbeGenerator) (a : Attr) (b : NodeBlock),
      generate_statement g (NodeStatement.mk a (Statement.Loop b)) =
        ([FuncItem.assign (Value.Temporary ("v" ++ decStr g.tmp_counter)) Ty.Word
            (Instr.Load Ty.Word generate_ptr),
          FuncItem.instr (Instr.Jnz (Value.Temporary ("v" ++ decStr g.tmp_counter))
            ("loop" ++ decStr g.label_counter) ("end" ++ decStr g.label_counter)),
          FuncItem.block ("loop" ++ decStr g.label_counter)] ++
         (generate_block
           { g with label_counter := g.label_counter + 1, tmp_counter := g.tmp_counter + 1 }
           b).1 ++
         [FuncItem.assign (Value.Temporary ("v" ++ decStr g.tmp_counter)) Ty.Word
            (Instr.Load Ty.Word generate_ptr),
          FuncItem.instr (Instr.Jnz (Value.Temporary ("v" ++ decStr g.tmp_counter))
            ("loop" ++ decStr g.label_counter) ("end" ++ decStr g.label_counter)),
          FuncItem.block ("end" ++ decStr g.label_counter)],
         (generate_block
           { g with label_counter := g.label_counter + 1, tmp_counter := g.tmp_counter + 1 }
           b).2)) ∧
    (∀ (g : QbeGenerator) (a : NodeBlock), (labelsOf (gen g a).1).Nodup) :=
  ⟨generate_statement_loop, labelsOf_gen_nodup⟩

/-- C10: code generation is deterministic — generating from the same
AST with two freshly created generators yields identical results (the
emitted module text is a pure function of this structure). -/
theorem c10_deterministic_generation (a : NodeBlock) (g1 g2 : QbeGenerator)
    (h1 : g1 = QbeGenerator.new) (h2 : g2 = QbeGenerator.new) :
    gen g1 a = gen g2 a := by
  subst h1
  subst h2
  rfl

/-- C10 witness: two fresh generators produce the same module for a
one-statement program. -/
theorem c10_deterministic_generation_witness :
    gen QbeGenerator.new
      (NodeBlock.mk Attr.mk [NodeStatement.mk Attr.mk (Statement.MoveR 1)]) =
    gen QbeGenerator.new
      (NodeBlock.mk Attr.mk [NodeStatement.mk Attr.mk (Statement.MoveR 1)]) :=
  c10_deterministic_generation _ QbeGenerator.new QbeGenerator.new rfl rfl

theorem runGuard_bounds_check (g : QbeGenerator) (p b : Nat) :
    runGuard (generate_bounds_check g).1 p b =
      if sgt64 (g.tape_len / 2) (sub64 p b) then GuardResult.through
      else GuardResult.halted 1 := by
  rw [generate_bounds_check_items]
  show (if ("ptr" = "ptr" ∧ "tape" = "tape" ∧
      ("v" ++ decStr (g.tmp_counter + 1)) = ("v" ++ decStr (g.tmp_counter + 1)) ∧
      ("v" ++ decStr (g.tmp_counter + 2)) = ("v" ++ decStr (g.tmp_counter + 2)) ∧
      ("halt" ++ decStr (g.label_counter + 1)) = ("halt" ++ decStr (g.label_counter + 1)) ∧
      ("cont" ++ decStr g.label_counter) = ("cont" ++ decStr g.label_counter)) then
      (if sgt64 (g.tape_len / 2) (sub64 p b) then GuardResult.through
       else GuardResult.halted 1)
      else GuardResult.stuck) = _
  rw [if_pos ⟨rfl, rfl, rfl, rfl, rfl, rfl⟩]

theorem sgt64_true_of_neg {h p b : Nat} (hp : p < 2 ^ 64) (hb : b < 2 ^ 64)
    (hlt : p < b) (hmag : b - p ≤ 2 ^ 63) (hh : h < 2 ^ 63) :
    sgt64 h (sub64 p b) = true := by
  have e64 : (2 : Nat) ^ 64 = 18446744073709551616 := by norm_num
  have e63 : (2 : Nat) ^ 63 = 9223372036854775808 := by norm_num
  have e64i : (2 : Int) ^ 64 = 18446744073709551616 := by norm_num
  have e63i : (2 : Int) ^ 63 = 9223372036854775808 := by norm_num
  simp only [sgt64, sub64, toInt64, e64, e63, e64i, e63i, decide_eq_true_eq]
  split_ifs <;> omega

theorem sgt64_true_of_inrange {h p b : Nat} (hp : p < 2 ^ 64) (hb : b < 2 ^ 64)
    (hle : b ≤ p) (hsm : p - b < 2 ^ 63) (hlt : p - b < h) (hh : h < 2 ^ 63) :
    sgt64 h (sub64 p b) = true := by
  have e64 : (2 : Nat) ^ 64 = 18446744073709551616 := by norm_num
  have e63 : (2 : Nat) ^ 63 = 9223372036854775808 := by norm_num
  have e64i : (2 : Int) ^ 64 = 18446744073709551616 := by norm_num
  have e63i : (2 : Int) ^ 63 = 9223372036854775808 := by norm_num
  simp only [sgt64, sub64, toInt64, e64, e63, e64i, e63i, decide_eq_true_eq]
  split_ifs <;> omega

theorem sgt64_false_of_out {h p b : Nat} (hp : p < 2 ^ 64) (hb : b < 2 ^ 64)
    (hle : b ≤ p) (hsm : p - b < 2 ^ 63) (hge : h ≤ p - b) (hh : h < 2 ^ 63) :
    sgt64 h (sub64 p b) = false := by
  have e64 : (2 : Nat) ^ 64 = 18446744073709551616 := by norm_num
  have e63 : (2 : Nat) ^ 63 = 9223372036854775808 := by norm_num
  have e64i : (2 : Int) ^ 64 = 18446744073709551616 := by norm_num
  have e63i : (2 : Int) ^ 63 = 9223372036854775808 := by norm_num
  simp only [sgt64, sub64, toInt64, e64, e63, e64i, e63i, decide_eq_false_iff_not]
  split_ifs <;> omega

/-- C7: the in-bounds predicate of the emitted guard is the signed
comparison "half tape length greater-than offset", so a pointer
strictly below the tape base — whose 64-bit offset reads as a negative
signed value — passes the check and execution continues past the
guard; a pointer at a nonnegative offset below half the tape length
also continues; and only a nonnegative offset at least half the tape
length takes the halt path returning status 1. -/
theorem c7_signed_guard_negative_offset :
    (∀ (g : QbeGenerator) (p b : Nat),
      p < 2 ^ 64 → b < 2 ^ 64 → p < b → b - p ≤ 2 ^ 63 → g.tape_len / 2 < 2 ^ 63 →
      runGuard (generate_bounds_check g).1 p b = GuardResult.through) ∧
    (∀ (g : QbeGenerator) (p b : Nat),
      p < 2 ^ 64 → b < 2 ^ 64 → b ≤ p → p - b < 2 ^ 63 → p - b < g.tape_len / 2 →
      g.tape_len / 2 < 2 ^ 63 →
      runGuard (generate_bounds_check g).1 p b = GuardResult.through) ∧
    (∀ (g : QbeGenerator) (p b : Nat),
      p < 2 ^ 64 → b < 2 ^ 64 → b ≤ p → p - b < 2 ^ 63 → g.tape_len / 2 ≤ p - b →
      g.tape_len / 2 < 2 ^ 63 →
      runGuard (generate_bounds_check g).1 p b = GuardResult.halted 1) := by
  refine ⟨?_, ?_, ?_⟩
  · intro g p b hp hb hlt hmag hh
    rw [runGuard_bounds_check, sgt64_true_of_neg hp hb hlt hmag hh]
    rfl
  · intro g p b hp hb hle hsm hlt hh
    rw [runGuard_bounds_check, sgt64_true_of_inrange hp hb hle hsm hlt hh]
    rfl
  · intro g p b hp hb hle hsm hge hh
    rw [runGuard_bounds_check, sgt64_false_of_out hp hb hle hsm hge hh]
    rfl

/-- C7 witness: with the tape base at address 8 and the pointer at 0
(below the base, a negative signed offset), the fresh generator's
guard lets execution continue; with the pointer exactly half the tape
length past the base, it halts with status 1. -/
theorem c7_signed_guard_witness :
    runGuard (generate_bounds_check QbeGenerator.new).1 0 8 = GuardResult.through ∧
    runGuard (generate_bounds_check QbeGenerator.new).1 (8 + 240000) 8 =
      GuardResult.halted 1 := by
  constructor
  · exact c7_signed_guard_negative_offset.1 QbeGenerator.new 0 8 (by decide)
      (by decide) (by decide) (by decide) (by decide)
  · exact c7_signed_guard_negative_offset.2.2 QbeGenerator.new (8 + 240000) 8
      (by decide) (by decide) (by decide) (by decide) (by decide) (by decide)

end BF
